import Mathlib

set_option maxHeartbeats 1000000

/-!
Verification model of `server/public/model/client4_route.go`.

The Go file builds URL paths with a `clientRoute` value wrapping a `url.URL`
and a sticky `error`.  Go strings are byte sequences, so the model works on
`List UInt8`.  The relevant pieces of the Go standard library
(`url.PathEscape`, `url.(*URL).JoinPath`, `url.JoinPath`, `url.(*URL).String`,
`path.Clean`, `path.Join`, percent-decoding) are embedded below at byte level.

Byte values used throughout: 37 is the percent sign, 46 is a dot, 47 is a
slash, 58 is a colon.
-/

deriving instance DecidableEq for Except

/-- Go strings are byte sequences; the model uses lists of bytes. -/
abbrev GoStr := List UInt8

/-- Go `net/url.ishex`: ASCII hexadecimal digit (0-9, a-f, A-F). -/
def isHexDigit (c : UInt8) : Bool :=
  decide ((48 ≤ c.toNat ∧ c.toNat ≤ 57) ∨ (97 ≤ c.toNat ∧ c.toNat ≤ 102) ∨
    (65 ≤ c.toNat ∧ c.toNat ≤ 70))

/-- Go `net/url.unhex`: the value of a hexadecimal digit byte. -/
def unhex (c : UInt8) : Nat :=
  if 48 ≤ c.toNat ∧ c.toNat ≤ 57 then c.toNat - 48
  else if 97 ≤ c.toNat ∧ c.toNat ≤ 102 then c.toNat - 87
  else if 65 ≤ c.toNat ∧ c.toNat ≤ 70 then c.toNat - 55
  else 0

/-- Go `net/url`'s `upperhex[n]` for `n < 16`: digit bytes then capital
letters. -/
def upperhexDigit (n : Nat) : UInt8 :=
  if n < 10 then UInt8.ofNat (48 + n) else UInt8.ofNat (55 + n)

/-- Go `net/url.shouldEscape(c, encodePathSegment)`, the only mode this
package uses (via `url.PathEscape`): alphanumerics, the marks `- _ . ~` and
the reserved bytes `$ & + : = @` stay, while `/ ; , ?` and everything else is
escaped. -/
def shouldEscape (c : UInt8) : Bool :=
  if (97 ≤ c.toNat ∧ c.toNat ≤ 122) ∨ (65 ≤ c.toNat ∧ c.toNat ≤ 90) ∨
      (48 ≤ c.toNat ∧ c.toNat ≤ 57) then false
  else if c.toNat = 45 ∨ c.toNat = 95 ∨ c.toNat = 46 ∨ c.toNat = 126 then false
  else if c.toNat = 36 ∨ c.toNat = 38 ∨ c.toNat = 43 ∨ c.toNat = 44 ∨
      c.toNat = 47 ∨ c.toNat = 58 ∨ c.toNat = 59 ∨ c.toNat = 61 ∨
      c.toNat = 63 ∨ c.toNat = 64 then
    decide (c.toNat = 47 ∨ c.toNat = 59 ∨ c.toNat = 44 ∨ c.toNat = 63)
  else true

/-- Go `url.PathEscape(s)` = `escape(s, encodePathSegment)`: every byte that
`shouldEscape` selects becomes a percent sign followed by two upper-case hex
digits; other bytes pass through. -/
def pathEscape : GoStr → GoStr
  | [] => []
  | b :: rest =>
    (if shouldEscape b then [37, upperhexDigit (b.toNat / 16), upperhexDigit (b.toNat % 16)]
     else [b]) ++ pathEscape rest

/-- Go `net/url.unescape` in the path modes (`encodePath` /
`encodePathSegment`), where the only failure is a percent sign not followed
by two hexadecimal digits.  `url.PathUnescape` and `(*URL).setPath` both
decode with this function. -/
def unescapeBytes : GoStr → Option GoStr
  | [] => some []
  | b :: rest =>
    if b = 37 then
      match rest with
      | h1 :: h2 :: rest2 =>
        if isHexDigit h1 ∧ isHexDigit h2 then
          (unescapeBytes rest2).map (fun t => UInt8.ofNat (unhex h1 * 16 + unhex h2) :: t)
        else none
      | _ => none
    else (unescapeBytes rest).map (fun t => b :: t)

/-- Go `strings.Contains(v, "/")`. -/
def containsSlash (v : GoStr) : Bool :=
  v.any fun b => decide (b = 47)

/-- Splitting a byte string at every slash (`strings.Split(s, "/")`); the
inverse of `joinSlash`.  Used to state `path.Clean`. -/
def splitSlash : GoStr → List GoStr
  | [] => [[]]
  | b :: rest =>
    match splitSlash rest with
    | [] => if b = 47 then [[], []] else [[b]]
    | e :: es => if b = 47 then [] :: e :: es else (b :: e) :: es

/-- Joining byte strings with slashes (`strings.Join(xs, "/")`). -/
def joinSlash : List GoStr → GoStr
  | [] => []
  | [s] => s
  | s :: rest => s ++ 47 :: joinSlash rest

/-- The element loop of Go `path.Clean`, written on the slash-split elements
with an explicit stack (`acc`, kept reversed).  Following Clean's documented
rules: empty elements and `.` elements are dropped; a `..` element removes
the preceding element when one is there, is dropped at the root of a rooted
path, and is kept when a relative path cannot backtrack further. -/
def cleanElems : Bool → List GoStr → List GoStr → List GoStr
  | _, acc, [] => acc.reverse
  | rooted, acc, e :: es =>
    if e = [] ∨ e = [46] then cleanElems rooted acc es
    else if e = [46, 46] then
      match acc with
      | [] => if rooted then cleanElems rooted [] es else cleanElems rooted [[46, 46]] es
      | a :: acc2 =>
        if ¬ rooted ∧ a = [46, 46] then cleanElems rooted ([46, 46] :: a :: acc2) es
        else cleanElems rooted acc2 es
    else cleanElems rooted (e :: acc) es

/-- Go `path.Clean`: shortest equivalent path, empty result replaced by a
dot, leading slash preserved for rooted paths. -/
def pathClean (p : GoStr) : GoStr :=
  if p = [] then [46]
  else
    let rooted := p.head? = some 47
    let cleaned := cleanElems (decide rooted) [] (splitSlash p)
    let out := joinSlash cleaned
    let out2 := if rooted then 47 :: out else out
    if out2 = [] then [46] else out2

/-- Go `path.Join`: drop leading empty elements, join the rest with slashes
and Clean; all-empty input yields the empty string. -/
def pathJoin (elems : List GoStr) : GoStr :=
  match elems.dropWhile (fun e => decide (e = [])) with
  | [] => []
  | es => pathClean (joinSlash es)

/-- The `url.URL` values this package manipulates carry only a path (no
scheme, opaque part, user, host, query or fragment).  Such a URL is
represented by its escaped path, the string `EscapedPath()` returns: for
every validly encoded `p`, `setPath(p)` stores `Path = unescape(p)` and
keeps `RawPath` exactly when needed so that `EscapedPath()` returns `p`
again, so the escaped path determines the whole value. -/
abbrev GoURL := GoStr

/-- Go `(*url.URL).JoinPath(elem...)` (as of go1.20.2+): prepend the escaped
path, root a relative base before joining so `..` cannot escape and strip
the added slash afterwards, preserve one trailing slash, then `setPath`.
`setPath` fails exactly on an invalid percent-encoding, and `JoinPath`
ignores that error, leaving the URL's path unchanged in that case. -/
def goURLJoinPath (u : GoURL) (elems : List GoStr) : GoURL :=
  let elem0 := if u.head? = some 47 then u else 47 :: u
  let joined := pathJoin (elem0 :: elems)
  let p0 := if u.head? = some 47 then joined else joined.drop 1
  let lastElem := elems.getLastD elem0
  let p := if lastElem.getLast? = some 47 ∧ ¬ p0.getLast? = some 47 then p0 ++ [47] else p0
  if (unescapeBytes p).isSome then p else u

/-- Go `(*url.URL).String()` for the URLs this package builds (no scheme,
opaque part, user, host, query or fragment): the escaped path, prefixed with
a dot-slash when the first path segment contains a colon (RFC 3986 section
4.2 guard). -/
def goURLString (u : GoURL) : GoStr :=
  if (u.takeWhile fun b => !decide (b = 47)).any (fun b => decide (b = 58)) then
    46 :: 47 :: u
  else u

/-- Errors produced by `client4_route.go`.  Each `fmt.Errorf` call site gets
one constructor carrying the offending value; the emoji constructor also
wraps the validator's own error (the `%w` verb).  `external` stands for
errors built outside the file (as the tests do with `fmt.Errorf`), and
`urlParseError` for a `net/url.Parse` failure. -/
inductive GoError where
  | containsSlashes (v : GoStr)
  | notValidId (v : GoStr)
  | notValidUsername (v : GoStr)
  | notValidTeamName (v : GoStr)
  | notValidChannelName (v : GoStr)
  | notValidEmail (v : GoStr)
  | notValidEmojiName (v : GoStr) (detail : GoError)
  | urlParseError (s : GoStr)
  | external (tag : Nat)
deriving DecidableEq

/-- Go `net/url.Parse`, restricted to the bare path references this package
parses (the only base ever passed to `url.JoinPath` is the slash string,
which has no scheme, authority, query or fragment): Parse then reduces to
`setPath`, which fails exactly on an invalid percent-encoding. -/
def goParse (s : GoStr) : Except GoError GoURL :=
  if (unescapeBytes s).isSome then Except.ok s else Except.error (GoError.urlParseError s)

/-- Go package-level `url.JoinPath(base, elem...)`: parse the base, join,
and render with `String()`. -/
def goUrlJoinPath (base : GoStr) (elems : List GoStr) : Except GoError GoStr :=
  match goParse base with
  | Except.error e => Except.error e
  | Except.ok u => Except.ok (goURLString (goURLJoinPath u elems))

/-- The external validators consumed by the typed joins (`IsValidId` and
friends live outside this file); the model takes them as parameters.
`IsValidEmojiName` returns an error or nil in the source, hence
`Option GoError`. -/
structure Validators where
  IsValidId : GoStr → Bool
  IsValidUsername : GoStr → Bool
  IsValidTeamName : GoStr → Bool
  IsValidChannelIdentifier : GoStr → Bool
  IsValidEmail : GoStr → Bool
  IsValidEmojiName : GoStr → Option GoError

/-- The `clientRoute` struct: a `url.URL` (represented by its escaped path)
plus the sticky error field. -/
structure clientRoute where
  url : GoURL
  err : Option GoError
deriving DecidableEq

/-- The zero `clientRoute` value (spec name `empty()`): zero URL, nil
error. -/
def emptyClientRoute : clientRoute := ⟨[], none⟩

/-- Go `newClientRoute(v)`: join the path-escaped `v` onto the zero URL. -/
def newClientRoute (v : GoStr) : clientRoute :=
  { url := goURLJoinPath [] [pathEscape v], err := none }

/-- Go `(clientRoute).JoinRoute`. -/
def clientRoute.JoinRoute (r : clientRoute) (newRoute : clientRoute) : clientRoute :=
  if r.err.isSome then r
  else if newRoute.err.isSome then { r with err := newRoute.err }
  else { r with url := goURLJoinPath r.url [goURLString newRoute.url] }

/-- Go `(clientRoute).JoinSegment`: the slash check runs before anything
else (in particular before the stored error is consulted). -/
def clientRoute.JoinSegment (r : clientRoute) (v : GoStr) : clientRoute :=
  if containsSlash v then { r with err := some (GoError.containsSlashes v) }
  else r.JoinRoute (newClientRoute v)

/-- Go `(clientRoute).JoinSegments`: a left fold of `JoinSegment`. -/
def clientRoute.JoinSegments (r : clientRoute) (values : List GoStr) : clientRoute :=
  values.foldl clientRoute.JoinSegment r

/-- Go `(clientRoute).JoinId`. -/
def clientRoute.JoinId (r : clientRoute) (V : Validators) (v : GoStr) : clientRoute :=
  if !(V.IsValidId v) then { r with err := some (GoError.notValidId v) }
  else r.JoinSegment v

/-- Go `(clientRoute).JoinUsername`. -/
def clientRoute.JoinUsername (r : clientRoute) (V : Validators) (v : GoStr) : clientRoute :=
  if !(V.IsValidUsername v) then { r with err := some (GoError.notValidUsername v) }
  else r.JoinSegment v

/-- Go `(clientRoute).JoinTeamname`. -/
def clientRoute.JoinTeamname (r : clientRoute) (V : Validators) (v : GoStr) : clientRoute :=
  if !(V.IsValidTeamName v) then { r with err := some (GoError.notValidTeamName v) }
  else r.JoinSegment v

/-- Go `(clientRoute).JoinChannelname`. -/
def clientRoute.JoinChannelname (r : clientRoute) (V : Validators) (v : GoStr) : clientRoute :=
  if !(V.IsValidChannelIdentifier v) then { r with err := some (GoError.notValidChannelName v) }
  else r.JoinSegment v

/-- Go `(clientRoute).JoinEmail`. -/
def clientRoute.JoinEmail (r : clientRoute) (V : Validators) (v : GoStr) : clientRoute :=
  if !(V.IsValidEmail v) then { r with err := some (GoError.notValidEmail v) }
  else r.JoinSegment v

/-- Go `(clientRoute).JoinEmojiname`: on failure the validator's error is
wrapped. -/
def clientRoute.JoinEmojiname (r : clientRoute) (V : Validators) (v : GoStr) : clientRoute :=
  match V.IsValidEmojiName v with
  | some e2 => { r with err := some (GoError.notValidEmojiName v e2) }
  | none => r.JoinSegment v

/-- The `*url.URL` returned by `clientRoute.URL`: the code copies `r.url`
and overwrites its `Path` field with the string produced by
`url.JoinPath("/", ...)`; `Path` is the only field callers read. -/
structure URLResult where
  Path : GoStr
deriving DecidableEq

/-- Go `(clientRoute).URL()`. -/
def clientRoute.URL (r : clientRoute) : Except GoError URLResult :=
  match r.err with
  | some e => Except.error e
  | none =>
    match goUrlJoinPath [47] [goURLString r.url] with
    | Except.error e => Except.error e
    | Except.ok path => Except.ok ⟨path⟩

/-- Go `(clientRoute).String()`. -/
def clientRoute.String (r : clientRoute) : Except GoError GoStr :=
  match r.err with
  | some e => Except.error e
  | none => goUrlJoinPath [47] [goURLString r.url]

/-- One step of a Join chain, for stating chain-level claims. -/
inductive JoinOp where
  | joinRoute (other : clientRoute)
  | joinSegment (v : GoStr)
  | joinSegments (vs : List GoStr)
  | joinId (v : GoStr)
  | joinUsername (v : GoStr)
  | joinTeamname (v : GoStr)
  | joinChannelname (v : GoStr)
  | joinEmail (v : GoStr)
  | joinEmojiname (v : GoStr)

/-- Apply one chain step to a builder. -/
def applyOp (V : Validators) (r : clientRoute) : JoinOp → clientRoute
  | JoinOp.joinRoute o => r.JoinRoute o
  | JoinOp.joinSegment v => r.JoinSegment v
  | JoinOp.joinSegments vs => r.JoinSegments vs
  | JoinOp.joinId v => r.JoinId V v
  | JoinOp.joinUsername v => r.JoinUsername V v
  | JoinOp.joinTeamname v => r.JoinTeamname V v
  | JoinOp.joinChannelname v => r.JoinChannelname V v
  | JoinOp.joinEmail v => r.JoinEmail V v
  | JoinOp.joinEmojiname v => r.JoinEmojiname V v

/-- Whether a chain step passes its own upfront check, the test each Join
method runs before it consults the stored error: the slash test for segment
joins, the kind validator plus the slash test for typed joins, nothing for
`JoinRoute`. -/
def opSelfValid (V : Validators) : JoinOp → Bool
  | JoinOp.joinRoute _ => true
  | JoinOp.joinSegment v => !containsSlash v
  | JoinOp.joinSegments vs => vs.all fun v => !containsSlash v
  | JoinOp.joinId v => V.IsValidId v && !containsSlash v
  | JoinOp.joinUsername v => V.IsValidUsername v && !containsSlash v
  | JoinOp.joinTeamname v => V.IsValidTeamName v && !containsSlash v
  | JoinOp.joinChannelname v => V.IsValidChannelIdentifier v && !containsSlash v
  | JoinOp.joinEmail v => V.IsValidEmail v && !containsSlash v
  | JoinOp.joinEmojiname v => (V.IsValidEmojiName v).isNone && !containsSlash v

/-- A well-formed path segment as stored in a builder's URL: nonempty,
slash-free, not a dot or dot-dot element (those would be cleaned away), and
validly percent-encoded. -/
def goodSeg (e : GoStr) : Bool :=
  decide (e ≠ []) && !containsSlash e && decide (e ≠ [46]) && decide (e ≠ [46, 46]) &&
    (unescapeBytes e).isSome

/-- Invariant of every URL value reachable through the builder API: the
escaped path is empty or consists of well-formed segments joined by
slashes. -/
def SegWF (u : GoURL) : Bool :=
  u.isEmpty || (splitSlash u).all goodSeg

/-- The segment sequence a builder URL denotes. -/
def urlSegments (u : GoURL) : List GoStr :=
  if u = [] then [] else splitSlash u

/-- A concrete instantiation of the external validators, used only to
evaluate theorems on explicit inputs.  The shapes are stand-ins (the real
validators live outside this file): identifiers must have 26 bytes,
usernames, team names, channel names must be nonempty and slash-free,
emails must contain an at sign, emoji names must be nonempty. -/
def sampleValidators : Validators where
  IsValidId := fun v => decide (v.length = 26)
  IsValidUsername := fun v => decide (v ≠ []) && !containsSlash v
  IsValidTeamName := fun v => decide (v ≠ []) && !containsSlash v
  IsValidChannelIdentifier := fun v => decide (v ≠ []) && !containsSlash v
  IsValidEmail := fun v => v.any fun b => decide (b = 64)
  IsValidEmojiName := fun v => if v = [] then some (GoError.external 1) else none

/-- Byte string for the word api. -/
def bAPI : GoStr := [97, 112, 105]

/-- Byte string a slash b (contains a slash). -/
def bAB : GoStr := [97, 47, 98]

/-- Byte string c slash d (contains a slash). -/
def bCD : GoStr := [99, 47, 100]

/-- Byte string v4. -/
def bV4 : GoStr := [118, 52]

/-- Byte string of a single dot. -/
def bDot : GoStr := [46]

/-- Byte string users. -/
def bUsers : GoStr := [117, 115, 101, 114, 115]

/-- Byte string me. -/
def bMe : GoStr := [109, 101]

example : (newClientRoute bAPI).String = Except.ok [47, 97, 112, 105] := by decide

example : emptyClientRoute.String = Except.ok [47] := by decide

example : ((newClientRoute bAPI).JoinSegments [bV4, bUsers, bMe]).String =
    Except.ok [47, 97, 112, 105, 47, 118, 52, 47, 117, 115, 101, 114, 115, 47, 109, 101] := by
  decide

example : (newClientRoute bAB).String = Except.ok [47, 97, 37, 50, 70, 98] := by decide

example : (newClientRoute bDot).String = Except.ok [47] := by decide

example : ((newClientRoute bAPI).JoinSegment [104, 105, 32, 109, 101]).String =
    Except.ok [47, 97, 112, 105, 47, 104, 105, 37, 50, 48, 109, 101] := by decide

/-! Helper lemmas. -/

theorem goParse_slash : goParse [47] = Except.ok [47] := by decide

theorem containsSlash_iff (s : GoStr) : containsSlash s = true ↔ (47 : UInt8) ∈ s := by
  simp [containsSlash, List.any_eq_true]

theorem containsSlash_false_iff (s : GoStr) : containsSlash s = false ↔ (47 : UInt8) ∉ s := by
  rw [← Bool.not_eq_true, containsSlash_iff]

theorem pathClean_head_slash (p : GoStr) (h : p.head? = some 47) :
    (pathClean p).head? = some 47 := by
  cases p with
  | nil => simp at h
  | cons b rest =>
    simp only [List.head?_cons, Option.some.injEq] at h
    subst h
    simp only [pathClean, List.head?_cons, reduceCtorEq, List.cons_ne_self]
    simp

theorem goURLString_of_head_slash (u : GoURL) (h : u.head? = some 47) : goURLString u = u := by
  cases u with
  | nil => simp at h
  | cons b rest =>
    simp only [List.head?_cons, Option.some.injEq] at h
    subst h
    simp [goURLString, List.takeWhile]

theorem goURLJoinPath_root (elems : List GoStr) :
    goURLJoinPath [47] elems =
      (if (elems.getLastD [47]).getLast? = some 47 ∧
            ¬ (pathJoin ([47] :: elems)).getLast? = some 47 then
        if (unescapeBytes (pathJoin ([47] :: elems) ++ [47])).isSome then
          pathJoin ([47] :: elems) ++ [47]
        else [47]
      else
        if (unescapeBytes (pathJoin ([47] :: elems))).isSome then pathJoin ([47] :: elems)
        else [47]) := by
  show (if _ then _ else _) = _
  split <;> split <;> simp_all [goURLJoinPath]

theorem pathJoin_root_head (elems : List GoStr) :
    (pathJoin ([47] :: elems)).head? = some 47 := by
  unfold pathJoin
  have hdrop : ([47] :: elems).dropWhile (fun e => decide (e = [])) = [47] :: elems := by
    simp [List.dropWhile]
  rw [hdrop]
  apply pathClean_head_slash
  cases elems with
  | nil => simp [joinSlash]
  | cons e es => cases es <;> simp [joinSlash]

theorem goURLJoinPath_root_head (elems : List GoStr) :
    (goURLJoinPath [47] elems).head? = some 47 := by
  rw [goURLJoinPath_root]
  have hjoined := pathJoin_root_head elems
  rcases hp : pathJoin ([47] :: elems) with _ | ⟨b, t⟩
  · rw [hp] at hjoined; simp at hjoined
  · rw [hp] at hjoined
    simp only [List.head?_cons, Option.some.injEq] at hjoined
    subst hjoined
    split <;> split <;> simp

theorem finalizer_shape (x : GoStr) :
    goUrlJoinPath [47] [x] =
      Except.ok (goURLString (goURLJoinPath [47] [x])) := by
  simp [goUrlJoinPath, goParse_slash]

theorem finalizer_head (x : GoStr) :
    (goURLString (goURLJoinPath [47] [x])).head? = some 47 := by
  rw [goURLString_of_head_slash _ (goURLJoinPath_root_head [x])]
  exact goURLJoinPath_root_head [x]

/-! Claims C4, C5, C9, C10 and the C1/C3/C7 counterexamples. -/

/-- C4.  Slash rejection: for every string v containing at least one slash,
JoinSegment(v) on an error-free builder leaves the path unchanged and stores
the contains-slashes error quoting v, so empty().JoinSegment(v).String()
fails with exactly that error. -/
theorem claim_C4 (r : clientRoute) (v : GoStr)
    (hv : containsSlash v = true) (hr : r.err = none) :
    r.JoinSegment v = ⟨r.url, some (GoError.containsSlashes v)⟩
    ∧ (emptyClientRoute.JoinSegment v).String = Except.error (GoError.containsSlashes v) := by
  obtain ⟨u, e⟩ := r
  refine ⟨?_, ?_⟩
  · simp [clientRoute.JoinSegment, hv]
  · simp [clientRoute.JoinSegment, hv, clientRoute.String, emptyClientRoute]

theorem claim_C4_witness :
    emptyClientRoute.JoinSegment bAB = ⟨emptyClientRoute.url, some (GoError.containsSlashes bAB)⟩
    ∧ (emptyClientRoute.JoinSegment bAB).String = Except.error (GoError.containsSlashes bAB) :=
  claim_C4 emptyClientRoute bAB (by decide) rfl

/-- C5.  Leading-slash invariant: String() either fails or returns a
non-empty string starting with a slash; URL() likewise; and the empty
builder resolves to exactly the one-byte slash string with no error. -/
theorem claim_C5 (r : clientRoute) :
    (∀ s, r.String = Except.ok s → s ≠ [] ∧ s.head? = some 47)
    ∧ (∀ u2, r.URL = Except.ok u2 → u2.Path ≠ [] ∧ u2.Path.head? = some 47)
    ∧ emptyClientRoute.String = Except.ok [47] := by
  refine ⟨?_, ?_, by decide⟩
  · intro s hs
    cases hr : r.err with
    | some e => simp [clientRoute.String, hr] at hs
    | none =>
      rw [clientRoute.String, hr, finalizer_shape] at hs
      have hh := finalizer_head (goURLString r.url)
      rw [Except.ok.injEq] at hs
      subst hs
      refine ⟨?_, hh⟩
      intro h0
      rw [h0] at hh
      simp at hh
  · intro u2 hu2
    cases hr : r.err with
    | some e => simp [clientRoute.URL, hr] at hu2
    | none =>
      rw [clientRoute.URL, hr] at hu2
      rw [finalizer_shape] at hu2
      simp only [Except.ok.injEq] at hu2
      subst hu2
      have hh := finalizer_head (goURLString r.url)
      refine ⟨?_, hh⟩
      intro h0
      have h1 : goURLString (goURLJoinPath [47] [goURLString r.url]) = [] := h0
      rw [h1] at hh
      simp at hh

theorem claim_C5_witness :
    (47 :: bAPI) ≠ [] ∧ (47 :: bAPI).head? = some 47 :=
  (claim_C5 (newClientRoute bAPI)).1 (47 :: bAPI) (by decide)

/-- C9.  String/URL agreement: URL() and String() fail together with the
same error, and on success the URL's Path field is byte-identical to the
string String() returns; mapping the Path projection over URL() gives
exactly String(). -/
theorem claim_C9 (r : clientRoute) :
    r.URL.map URLResult.Path = r.String := by
  cases hr : r.err with
  | some e => simp [clientRoute.String, clientRoute.URL, hr, Except.map]
  | none =>
    rw [clientRoute.String, clientRoute.URL, hr, finalizer_shape]
    simp [Except.map]

/-- C10.  The finalizers never fail in the Building state: String() and
URL() return an error exactly when the stored error is set, and then it is
that stored error (the error branch guarding url.JoinPath is unreachable
because parsing the constant slash base never fails). -/
theorem claim_C10 (r : clientRoute) (e : GoError) :
    (r.String = Except.error e ↔ r.err = some e)
    ∧ (r.URL = Except.error e ↔ r.err = some e) := by
  cases hr : r.err with
  | some e2 => simp [clientRoute.String, clientRoute.URL, hr]
  | none =>
    constructor
    · rw [clientRoute.String, hr, finalizer_shape]
      simp
    · rw [clientRoute.URL, hr, finalizer_shape]
      simp

/-- C1 counterexample.  A chain of two Join operations from empty() whose
first operation fails: the second operation also fails its own slash check
and overwrites the stored error, so String() reports the second error, not
the first. -/
theorem claim_C1_counterexample :
    (emptyClientRoute.JoinSegment bAB).err = some (GoError.containsSlashes bAB)
    ∧ ((emptyClientRoute.JoinSegment bAB).JoinSegment bCD).String =
        Except.error (GoError.containsSlashes bCD)
    ∧ ((emptyClientRoute.JoinSegment bAB).JoinSegment bCD).URL =
        Except.error (GoError.containsSlashes bCD)
    ∧ GoError.containsSlashes bCD ≠ GoError.containsSlashes bAB := by decide

/-- C7 counterexample.  JoinSegments with two slash-containing elements
reports the last failing segment's error, not the first one. -/
theorem claim_C7_counterexample :
    (emptyClientRoute.JoinSegments [bAB, bCD]).String =
        Except.error (GoError.containsSlashes bCD)
    ∧ containsSlash bAB = true
    ∧ GoError.containsSlashes bCD ≠ GoError.containsSlashes bAB := by decide

/-- C3 counterexample.  For the one-byte dot string (which contains no
slash), newClientRoute(v).String() returns the bare slash string: the dot
segment is normalized away by path cleaning instead of being kept as the
slash-plus-escaped-v string. -/
theorem claim_C3_counterexample :
    containsSlash bDot = false
    ∧ (newClientRoute bDot).String = Except.ok [47]
    ∧ [47] ≠ 47 :: pathEscape bDot := by decide

/-! Claim C8: the typed-join contract. -/

/-- C8.  Typed join contract: on an error-free builder each typed join
stores its kind-specific error (quoting v, the emoji variant wrapping the
validator's detail) and leaves the path unchanged when the validator
rejects v, and equals JoinSegment(v) when the validator accepts v, so an
accepted v containing a slash is still rejected by the slash check. -/
theorem claim_C8 (V : Validators) (r : clientRoute) (v : GoStr) (d : GoError)
    (hr : r.err = none) :
    (V.IsValidId v = false → r.JoinId V v = ⟨r.url, some (GoError.notValidId v)⟩)
    ∧ (V.IsValidId v = true → r.JoinId V v = r.JoinSegment v)
    ∧ (V.IsValidId v = true → containsSlash v = true →
        r.JoinId V v = ⟨r.url, some (GoError.containsSlashes v)⟩)
    ∧ (V.IsValidUsername v = false → r.JoinUsername V v = ⟨r.url, some (GoError.notValidUsername v)⟩)
    ∧ (V.IsValidUsername v = true → r.JoinUsername V v = r.JoinSegment v)
    ∧ (V.IsValidTeamName v = false → r.JoinTeamname V v = ⟨r.url, some (GoError.notValidTeamName v)⟩)
    ∧ (V.IsValidTeamName v = true → r.JoinTeamname V v = r.JoinSegment v)
    ∧ (V.IsValidChannelIdentifier v = false →
        r.JoinChannelname V v = ⟨r.url, some (GoError.notValidChannelName v)⟩)
    ∧ (V.IsValidChannelIdentifier v = true → r.JoinChannelname V v = r.JoinSegment v)
    ∧ (V.IsValidEmail v = false → r.JoinEmail V v = ⟨r.url, some (GoError.notValidEmail v)⟩)
    ∧ (V.IsValidEmail v = true → r.JoinEmail V v = r.JoinSegment v)
    ∧ (V.IsValidEmojiName v = some d →
        r.JoinEmojiname V v = ⟨r.url, some (GoError.notValidEmojiName v d)⟩)
    ∧ (V.IsValidEmojiName v = none → r.JoinEmojiname V v = r.JoinSegment v) := by
  obtain ⟨u, e⟩ := r
  subst hr
  refine ⟨fun h => ?_, fun h => ?_, fun h hv => ?_, fun h => ?_, fun h => ?_, fun h => ?_,
    fun h => ?_, fun h => ?_, fun h => ?_, fun h => ?_, fun h => ?_, fun h => ?_, fun h => ?_⟩
  all_goals
    simp_all [clientRoute.JoinId, clientRoute.JoinUsername, clientRoute.JoinTeamname,
      clientRoute.JoinChannelname, clientRoute.JoinEmail, clientRoute.JoinEmojiname,
      clientRoute.JoinSegment]

theorem claim_C8_witness :
    emptyClientRoute.JoinId sampleValidators bMe =
      ⟨emptyClientRoute.url, some (GoError.notValidId bMe)⟩ :=
  (claim_C8 sampleValidators emptyClientRoute bMe (GoError.external 0) rfl).1 (by decide)

/-! Sticky-error lemmas for the chain claims. -/

theorem JoinRoute_sticky (r o : clientRoute) (h : r.err.isSome = true) :
    r.JoinRoute o = r := by
  simp [clientRoute.JoinRoute, h]

theorem newClientRoute_err (v : GoStr) : (newClientRoute v).err = none := rfl

theorem JoinSegment_sticky_parts (r : clientRoute) (v : GoStr) (h : r.err.isSome = true) :
    (r.JoinSegment v).url = r.url ∧ (r.JoinSegment v).err.isSome = true := by
  by_cases hv : containsSlash v
  · simp [clientRoute.JoinSegment, hv]
  · simp [clientRoute.JoinSegment, hv, JoinRoute_sticky r _ h, h]

theorem JoinSegment_sticky_clean (r : clientRoute) (v : GoStr) (h : r.err.isSome = true)
    (hv : containsSlash v = false) : r.JoinSegment v = r := by
  simp [clientRoute.JoinSegment, hv, JoinRoute_sticky r _ h]

theorem JoinSegments_cons (r : clientRoute) (v : GoStr) (vs : List GoStr) :
    r.JoinSegments (v :: vs) = (r.JoinSegment v).JoinSegments vs := rfl

theorem JoinSegments_sticky_parts (vs : List GoStr) :
    ∀ (r : clientRoute), r.err.isSome = true →
      (r.JoinSegments vs).url = r.url ∧ (r.JoinSegments vs).err.isSome = true := by
  induction vs with
  | nil => exact fun r h => ⟨rfl, h⟩
  | cons v vs ih =>
    intro r h
    have h1 := JoinSegment_sticky_parts r v h
    have h2 := ih (r.JoinSegment v) h1.2
    rw [JoinSegments_cons]
    exact ⟨h2.1.trans h1.1, h2.2⟩

theorem JoinSegments_sticky_clean (vs : List GoStr) :
    ∀ (r : clientRoute), r.err.isSome = true →
      (vs.all fun v => !containsSlash v) = true → r.JoinSegments vs = r := by
  induction vs with
  | nil => exact fun r _ _ => rfl
  | cons v vs ih =>
    intro r h hall
    simp only [List.all_cons, Bool.and_eq_true, Bool.not_eq_true'] at hall
    rw [JoinSegments_cons, JoinSegment_sticky_clean r v h hall.1]
    exact ih r h hall.2

theorem typedJoinAux (r : clientRoute) (cond : Bool) (err2 : GoError) (v : GoStr)
    (h : r.err.isSome = true) :
    (if !cond then { r with err := some err2 } else r.JoinSegment v).url = r.url
    ∧ (if !cond then { r with err := some err2 } else r.JoinSegment v).err.isSome = true
    ∧ ((cond && !containsSlash v) = true →
        (if !cond then { r with err := some err2 } else r.JoinSegment v) = r) := by
  cases cond with
  | false => simp
  | true =>
    simp only [Bool.not_true, Bool.false_eq_true, if_false, Bool.true_and, Bool.not_eq_true']
    exact ⟨(JoinSegment_sticky_parts r v h).1, (JoinSegment_sticky_parts r v h).2,
      fun hv => JoinSegment_sticky_clean r v h hv⟩

theorem applyOp_sticky (V : Validators) (r : clientRoute) (op : JoinOp)
    (h : r.err.isSome = true) :
    (applyOp V r op).url = r.url ∧ (applyOp V r op).err.isSome = true
    ∧ (opSelfValid V op = true → applyOp V r op = r) := by
  cases op with
  | joinRoute o => simp [applyOp, opSelfValid, JoinRoute_sticky r o h, h]
  | joinSegment v =>
    refine ⟨(JoinSegment_sticky_parts r v h).1, (JoinSegment_sticky_parts r v h).2, fun hv => ?_⟩
    simp only [opSelfValid, Bool.not_eq_true'] at hv
    exact JoinSegment_sticky_clean r v h hv
  | joinSegments vs =>
    refine ⟨(JoinSegments_sticky_parts vs r h).1, (JoinSegments_sticky_parts vs r h).2,
      fun hv => ?_⟩
    exact JoinSegments_sticky_clean vs r h hv
  | joinId v =>
    simpa [applyOp, clientRoute.JoinId, opSelfValid] using
      typedJoinAux r (V.IsValidId v) (GoError.notValidId v) v h
  | joinUsername v =>
    simpa [applyOp, clientRoute.JoinUsername, opSelfValid] using
      typedJoinAux r (V.IsValidUsername v) (GoError.notValidUsername v) v h
  | joinTeamname v =>
    simpa [applyOp, clientRoute.JoinTeamname, opSelfValid] using
      typedJoinAux r (V.IsValidTeamName v) (GoError.notValidTeamName v) v h
  | joinChannelname v =>
    simpa [applyOp, clientRoute.JoinChannelname, opSelfValid] using
      typedJoinAux r (V.IsValidChannelIdentifier v) (GoError.notValidChannelName v) v h
  | joinEmail v =>
    simpa [applyOp, clientRoute.JoinEmail, opSelfValid] using
      typedJoinAux r (V.IsValidEmail v) (GoError.notValidEmail v) v h
  | joinEmojiname v =>
    cases hv : V.IsValidEmojiName v with
    | some d => simp [applyOp, clientRoute.JoinEmojiname, opSelfValid, hv]
    | none =>
      simp only [applyOp, clientRoute.JoinEmojiname, opSelfValid, hv, Option.isNone_none,
        Bool.true_and, Bool.not_eq_true']
      exact ⟨(JoinSegment_sticky_parts r v h).1, (JoinSegment_sticky_parts r v h).2,
        fun hv2 => JoinSegment_sticky_clean r v h hv2⟩

theorem chain_sticky (V : Validators) (ops : List JoinOp) :
    ∀ (r : clientRoute), r.err.isSome = true →
      (ops.foldl (applyOp V) r).url = r.url ∧ (ops.foldl (applyOp V) r).err.isSome = true := by
  induction ops with
  | nil => exact fun r h => ⟨rfl, h⟩
  | cons op ops ih =>
    intro r h
    have h1 := applyOp_sticky V r op h
    have h2 := ih (applyOp V r op) h1.2.1
    rw [List.foldl_cons]
    exact ⟨h2.1.trans h1.1, h2.2⟩

theorem chain_sticky_id (V : Validators) (ops : List JoinOp) :
    ∀ (r : clientRoute), r.err.isSome = true →
      (∀ op ∈ ops, opSelfValid V op = true) → ops.foldl (applyOp V) r = r := by
  induction ops with
  | nil => exact fun r _ _ => rfl
  | cons op ops ih =>
    intro r h hall
    rw [List.foldl_cons, (applyOp_sticky V r op h).2.2 (hall op (by simp))]
    exact ih r h fun op2 hop2 => hall op2 (by simp [hop2])

/-- C1 amended.  Once a Join operation has failed and stored its error,
every later Join operation leaves the path unchanged; and when every later
operation passes its own upfront check (JoinRoute always does, segment
joins need slash-free arguments, typed joins need validator-accepted
slash-free arguments), the builder is returned unchanged, so String() and
URL() report exactly the first stored error.  (Without that proviso a later
failing operation overwrites the stored error, see the counterexample.) -/
theorem claim_C1_amended (V : Validators) (r : clientRoute) (e : GoError) (ops : List JoinOp)
    (he : r.err = some e) :
    (ops.foldl (applyOp V) r).url = r.url
    ∧ ((∀ op ∈ ops, opSelfValid V op = true) →
        ops.foldl (applyOp V) r = r
        ∧ (ops.foldl (applyOp V) r).String = Except.error e
        ∧ (ops.foldl (applyOp V) r).URL = Except.error e) := by
  have hsome : r.err.isSome = true := by rw [he]; rfl
  refine ⟨(chain_sticky V ops r hsome).1, fun hall => ?_⟩
  have hid := chain_sticky_id V ops r hsome hall
  rw [hid]
  exact ⟨rfl, by simp [clientRoute.String, he], by simp [clientRoute.URL, he]⟩

theorem claim_C1_amended_witness :
    ([JoinOp.joinSegment bV4, JoinOp.joinRoute (newClientRoute bAPI)].foldl
        (applyOp sampleValidators) (emptyClientRoute.JoinSegment bAB)).String =
      Except.error (GoError.containsSlashes bAB) :=
  (((claim_C1_amended sampleValidators (emptyClientRoute.JoinSegment bAB)
      (GoError.containsSlashes bAB)
      [JoinOp.joinSegment bV4, JoinOp.joinRoute (newClientRoute bAPI)]
      (by decide)).2 (by decide)).2).1

/-! Error bookkeeping lemmas for JoinSegments. -/

theorem JoinSegment_err_clean (r : clientRoute) (v : GoStr) (hv : containsSlash v = false) :
    (r.JoinSegment v).err = r.err := by
  cases hr : r.err with
  | some e =>
    rw [JoinSegment_sticky_clean r v (by rw [hr]; rfl) hv, hr]
  | none =>
    simp [clientRoute.JoinSegment, hv, clientRoute.JoinRoute, hr, newClientRoute_err]

theorem JoinSegments_err_clean (vs : List GoStr) :
    ∀ (r : clientRoute), (∀ x ∈ vs, containsSlash x = false) →
      (r.JoinSegments vs).err = r.err := by
  induction vs with
  | nil => exact fun r _ => rfl
  | cons v vs ih =>
    intro r hall
    rw [JoinSegments_cons, ih (r.JoinSegment v) fun x hx => hall x (by simp [hx]),
      JoinSegment_err_clean r v (hall v (by simp))]

theorem JoinSegment_err_slash (r : clientRoute) (v : GoStr) (hv : containsSlash v = true) :
    (r.JoinSegment v).err = some (GoError.containsSlashes v) := by
  simp [clientRoute.JoinSegment, hv]

theorem JoinSegments_err_lastSlash (vs : List GoStr) :
    ∀ (r : clientRoute), vs.filter containsSlash ≠ [] →
      (r.JoinSegments vs).err =
        some (GoError.containsSlashes ((vs.filter containsSlash).getLastD [])) := by
  induction vs with
  | nil => intro r h; simp at h
  | cons v vs ih =>
    intro r h
    rw [JoinSegments_cons]
    by_cases hv : containsSlash v
    · rw [List.filter_cons_of_pos hv]
      cases hfil : vs.filter containsSlash with
      | nil =>
        have hclean : ∀ x ∈ vs, containsSlash x = false := by
          intro x hx
          by_contra hcx
          have : x ∈ vs.filter containsSlash :=
            List.mem_filter.2 ⟨hx, by revert hcx; cases containsSlash x <;> simp⟩
          rw [hfil] at this
          simp at this
        rw [JoinSegments_err_clean vs (r.JoinSegment v) hclean, JoinSegment_err_slash r v hv]
        simp
      | cons w ws =>
        have hmain := ih (r.JoinSegment v) (by rw [hfil]; simp)
        rw [hmain, hfil]
        simp [List.getLastD_eq_getLast?]
    · rw [List.filter_cons_of_neg (by simp [hv])]
      exact ih (r.JoinSegment v) (by rw [List.filter_cons_of_neg (by simp [hv])] at h; exact h)

/-- C7 amended.  JoinSegments is the left fold of JoinSegment and the empty
sequence is a no-op; slash-free segments never change the stored error; but
among slash-containing segments the LAST one determines the reported error
(each failing JoinSegment overwrites the stored error), not the first. -/
theorem claim_C7_amended (r : clientRoute) (vs : List GoStr) :
    r.JoinSegments vs = vs.foldl clientRoute.JoinSegment r
    ∧ r.JoinSegments [] = r
    ∧ (vs.filter containsSlash = [] → (r.JoinSegments vs).err = r.err)
    ∧ (vs.filter containsSlash ≠ [] →
        (r.JoinSegments vs).err =
          some (GoError.containsSlashes ((vs.filter containsSlash).getLastD []))) := by
  refine ⟨rfl, rfl, fun hnil => ?_, fun hne => JoinSegments_err_lastSlash vs r hne⟩
  refine JoinSegments_err_clean vs r fun x hx => ?_
  by_contra hcx
  have : x ∈ vs.filter containsSlash :=
    List.mem_filter.2 ⟨hx, by revert hcx; cases containsSlash x <;> simp⟩
  rw [hnil] at this
  simp at this

theorem claim_C7_amended_witness :
    (emptyClientRoute.JoinSegments [bAPI, bAB, bCD]).err =
      some (GoError.containsSlashes bCD) :=
  (claim_C7_amended emptyClientRoute [bAPI, bAB, bCD]).2.2.2 (by decide)

/-! Escaping lemmas: PathEscape output shape and the decode round trip. -/

theorem uint8_toNat_ofNat (n : Nat) : (UInt8.ofNat n).toNat = n % 256 := rfl

theorem uint8_ofNat_toNat (b : UInt8) : UInt8.ofNat b.toNat = b := by
  apply UInt8.ext
  rw [uint8_toNat_ofNat, Nat.mod_eq_of_lt b.toNat_lt]

theorem div16_lt (b : UInt8) : b.toNat / 16 < 16 := by
  have := b.toNat_lt
  omega

theorem mod16_lt (b : UInt8) : b.toNat % 16 < 16 := Nat.mod_lt _ (by norm_num)

theorem unhex_upperhex (n : Nat) (h : n < 16) : unhex (upperhexDigit n) = n := by
  interval_cases n <;> decide

theorem isHexDigit_upperhex (n : Nat) (h : n < 16) : isHexDigit (upperhexDigit n) = true := by
  interval_cases n <;> decide

theorem upperhex_ne_slash (n : Nat) (h : n < 16) : ¬ upperhexDigit n = 47 := by
  interval_cases n <;> decide

theorem ne_slash_of_not_shouldEscape (b : UInt8) (h : shouldEscape b = false) : ¬ b = 47 := by
  intro he
  rw [he] at h
  exact absurd h (by decide)

theorem ne_percent_of_not_shouldEscape (b : UInt8) (h : shouldEscape b = false) : ¬ b = 37 := by
  intro he
  rw [he] at h
  exact absurd h (by decide)

theorem pathEscape_noslash (v : GoStr) : containsSlash (pathEscape v) = false := by
  induction v with
  | nil => rfl
  | cons b rest ih =>
    simp only [containsSlash, pathEscape, List.any_append, Bool.or_eq_false_iff]
    refine ⟨?_, ih⟩
    by_cases hb : shouldEscape b
    · simp [if_pos hb, upperhex_ne_slash _ (div16_lt b), upperhex_ne_slash _ (mod16_lt b)]
    · simp [if_neg hb, ne_slash_of_not_shouldEscape b (by simpa using hb)]

theorem unescapeBytes_cons (b : UInt8) (rest : GoStr) :
    unescapeBytes (b :: rest) =
      if b = 37 then
        match rest with
        | h1 :: h2 :: rest2 =>
          if isHexDigit h1 ∧ isHexDigit h2 then
            (unescapeBytes rest2).map (fun t => UInt8.ofNat (unhex h1 * 16 + unhex h2) :: t)
          else none
        | _ => none
      else (unescapeBytes rest).map (fun t => b :: t) := by
  rw [unescapeBytes.eq_def]
  rfl

theorem unescapeBytes_cons_ne (b : UInt8) (rest : GoStr) (hb : ¬ b = 37) :
    unescapeBytes (b :: rest) = (unescapeBytes rest).map (fun t => b :: t) := by
  rw [unescapeBytes_cons, if_neg hb]

theorem unescapeBytes_percent (h1 h2 : UInt8) (rest2 : GoStr) :
    unescapeBytes (37 :: h1 :: h2 :: rest2) =
      if isHexDigit h1 ∧ isHexDigit h2 then
        (unescapeBytes rest2).map (fun t => UInt8.ofNat (unhex h1 * 16 + unhex h2) :: t)
      else none := by
  rw [unescapeBytes_cons, if_pos rfl]

theorem unescape_pathEscape (v : GoStr) : unescapeBytes (pathEscape v) = some v := by
  induction v with
  | nil => rfl
  | cons b rest ih =>
    by_cases hb : shouldEscape b
    · simp only [pathEscape, if_pos hb, List.cons_append, List.nil_append]
      rw [unescapeBytes_percent,
        if_pos ⟨isHexDigit_upperhex _ (div16_lt b), isHexDigit_upperhex _ (mod16_lt b)⟩, ih]
      have harith : UInt8.ofNat (unhex (upperhexDigit (b.toNat / 16)) * 16 +
          unhex (upperhexDigit (b.toNat % 16))) = b := by
        rw [unhex_upperhex _ (div16_lt b), unhex_upperhex _ (mod16_lt b)]
        have hdm : b.toNat / 16 * 16 + b.toNat % 16 = b.toNat := by omega
        rw [hdm]
        exact uint8_ofNat_toNat b
      simp [harith]
    · have hb2 : shouldEscape b = false := by simpa using hb
      simp only [pathEscape, if_neg hb, List.cons_append, List.nil_append]
      rw [unescapeBytes_cons_ne b _ (ne_percent_of_not_shouldEscape b hb2), ih]
      rfl

theorem pathEscape_eq_nil_iff (v : GoStr) : pathEscape v = [] ↔ v = [] := by
  cases v with
  | nil => simp [pathEscape]
  | cons b rest => by_cases hb : shouldEscape b <;> simp [pathEscape, hb]

theorem pathEscape_eq_dot (v : GoStr) (h : pathEscape v = [46]) : v = [46] := by
  cases v with
  | nil => simp [pathEscape] at h
  | cons b rest =>
    by_cases hb : shouldEscape b
    · simp only [pathEscape, if_pos hb, List.cons_append] at h
      injection h with h1 h2
      exact absurd h1 (by decide)
    · simp only [pathEscape, if_neg hb, List.cons_append, List.nil_append] at h
      injection h with h1 h2
      rw [pathEscape_eq_nil_iff] at h2
      rw [h1, h2]

theorem pathEscape_eq_dotdot (v : GoStr) (h : pathEscape v = [46, 46]) : v = [46, 46] := by
  cases v with
  | nil => simp [pathEscape] at h
  | cons b rest =>
    by_cases hb : shouldEscape b
    · simp only [pathEscape, if_pos hb, List.cons_append] at h
      injection h with h1 h2
      exact absurd h1 (by decide)
    · simp only [pathEscape, if_neg hb, List.cons_append, List.nil_append] at h
      injection h with h1 h2
      rw [h1, pathEscape_eq_dot rest h2]

theorem noslash_getLast (s : GoStr) (h : containsSlash s = false) : ¬ s.getLast? = some 47 := by
  intro hl
  induction s with
  | nil => simp at hl
  | cons a t ih =>
    cases t with
    | nil =>
      simp only [List.getLast?_singleton, Option.some.injEq] at hl
      rw [hl] at h
      simp [containsSlash] at h
    | cons c t2 =>
      rw [List.getLast?_cons_cons] at hl
      simp only [containsSlash, List.any_cons, Bool.or_eq_false_iff] at h
      exact ih (by simp [containsSlash, h.2.1, h.2.2]) hl

/-! Lemmas about splitSlash, joinSlash and cleanElems. -/

theorem splitSlash_ne_nil (s : GoStr) : splitSlash s ≠ [] := by
  cases s with
  | nil => simp [splitSlash]
  | cons b rest =>
    simp only [splitSlash]
    cases splitSlash rest with
    | nil => by_cases hb : b = 47 <;> simp [hb]
    | cons e es => by_cases hb : b = 47 <;> simp [hb]

theorem splitSlash_cons_slash (rest : GoStr) : splitSlash (47 :: rest) = [] :: splitSlash rest := by
  cases h : splitSlash rest with
  | nil => exact absurd h (splitSlash_ne_nil rest)
  | cons e es => simp [splitSlash, h]

theorem splitSlash_cons_of_ne (b : UInt8) (rest : GoStr) (hb : ¬ b = 47) (e : GoStr)
    (es : List GoStr) (h : splitSlash rest = e :: es) :
    splitSlash (b :: rest) = (b :: e) :: es := by
  simp [splitSlash, h, hb]

theorem splitSlash_noslash (s : GoStr) (h : containsSlash s = false) : splitSlash s = [s] := by
  induction s with
  | nil => rfl
  | cons b rest ih =>
    simp only [containsSlash, List.any_cons, Bool.or_eq_false_iff] at h
    have hb : ¬ b = 47 := by simpa using h.1
    exact splitSlash_cons_of_ne b rest hb rest [] (ih h.2)

theorem splitSlash_append (a b : GoStr) :
    splitSlash (a ++ 47 :: b) = splitSlash a ++ splitSlash b := by
  induction a with
  | nil =>
    rw [List.nil_append, splitSlash_cons_slash]
    rfl
  | cons c a2 ih =>
    by_cases hc : c = 47
    · subst hc
      rw [List.cons_append, splitSlash_cons_slash, splitSlash_cons_slash, ih, List.cons_append]
    · rcases h : splitSlash a2 with _ | ⟨e, es⟩
      · exact absurd h (splitSlash_ne_nil a2)
      · have h2 : splitSlash (a2 ++ 47 :: b) = e :: (es ++ splitSlash b) := by
          rw [ih, h]; rfl
        rw [List.cons_append, splitSlash_cons_of_ne c _ hc e (es ++ splitSlash b) h2,
          splitSlash_cons_of_ne c a2 hc e es h]
        rfl

theorem joinSlash_cons (s : GoStr) (rest : List GoStr) (h : rest ≠ []) :
    joinSlash (s :: rest) = s ++ 47 :: joinSlash rest := by
  cases rest with
  | nil => exact absurd rfl h
  | cons a t => rfl

theorem splitSlash_joinSlash (segs : List GoStr) (h : segs ≠ [])
    (hs : ∀ e ∈ segs, containsSlash e = false) : splitSlash (joinSlash segs) = segs := by
  induction segs with
  | nil => exact absurd rfl h
  | cons s rest ih =>
    cases rest with
    | nil => exact splitSlash_noslash s (hs s (by simp))
    | cons a t =>
      rw [joinSlash_cons s (a :: t) (by simp), splitSlash_append,
        ih (by simp) (fun e he => hs e (by simp [he])),
        splitSlash_noslash s (hs s (by simp))]
      rfl

theorem splitSlash_eq_single_nil (s : GoStr) (h : splitSlash s = [[]]) : s = [] := by
  cases s with
  | nil => rfl
  | cons b rest =>
    by_cases hb : b = 47
    · subst hb
      rw [splitSlash_cons_slash] at h
      injection h with h1 h2
      exact absurd h2 (splitSlash_ne_nil rest)
    · rcases hsp : splitSlash rest with _ | ⟨e, es⟩
      · exact absurd hsp (splitSlash_ne_nil rest)
      · rw [splitSlash_cons_of_ne b rest hb e es hsp] at h
        injection h with h1 h2
        simp at h1

theorem mem_of_getLast_eq (L : List GoStr) (x : GoStr) (h : L.getLast? = some x) : x ∈ L := by
  induction L with
  | nil => simp at h
  | cons a t ih =>
    cases t with
    | nil => simp at h; simp [h]
    | cons c t2 =>
      rw [List.getLast?_cons_cons] at h
      exact List.mem_cons_of_mem a (ih h)

theorem splitSlash_getLast_slash (s : GoStr) (hl : s.getLast? = some 47) :
    (splitSlash s).getLast? = some [] := by
  induction s with
  | nil => simp at hl
  | cons b rest ih =>
    cases rest with
    | nil =>
      simp only [List.getLast?_singleton, Option.some.injEq] at hl
      rw [hl]
      decide
    | cons c t =>
      rw [List.getLast?_cons_cons] at hl
      have h2 := ih hl
      by_cases hb : b = 47
      · subst hb
        rw [splitSlash_cons_slash]
        rcases hsp : splitSlash (c :: t) with _ | ⟨e, es⟩
        · exact absurd hsp (splitSlash_ne_nil (c :: t))
        · rw [hsp] at h2
          rw [List.getLast?_cons_cons]
          exact h2
      · rcases hsp : splitSlash (c :: t) with _ | ⟨e, es⟩
        · exact absurd hsp (splitSlash_ne_nil (c :: t))
        · rw [splitSlash_cons_of_ne b _ hb e es hsp]
          rw [hsp] at h2
          cases es with
          | nil =>
            simp only [List.getLast?_singleton, Option.some.injEq] at h2
            subst h2
            exact absurd (splitSlash_eq_single_nil (c :: t) hsp) (by simp)
          | cons e2 es2 =>
            rw [List.getLast?_cons_cons] at h2 ⊢
            exact h2

theorem cleanElems_cons (rooted : Bool) (acc : List GoStr) (e : GoStr) (es : List GoStr) :
    cleanElems rooted acc (e :: es) =
      if e = [] ∨ e = [46] then cleanElems rooted acc es
      else if e = [46, 46] then
        match acc with
        | [] => if rooted then cleanElems rooted [] es else cleanElems rooted [[46, 46]] es
        | a :: acc2 =>
          if ¬ rooted ∧ a = [46, 46] then cleanElems rooted ([46, 46] :: a :: acc2) es
          else cleanElems rooted acc2 es
      else cleanElems rooted (e :: acc) es := by
  rw [cleanElems.eq_def]

theorem cleanElems_no_dotdot (L : List GoStr) :
    ∀ (rooted : Bool) (acc : List GoStr), (∀ e ∈ L, e ≠ [46, 46]) →
      cleanElems rooted acc L =
        acc.reverse ++ L.filter (fun e => !(decide (e = []) || decide (e = [46]))) := by
  induction L with
  | nil => intro rooted acc _; simp [cleanElems]
  | cons e es ih =>
    intro rooted acc h
    by_cases he : e = [] ∨ e = [46]
    · rw [cleanElems_cons, if_pos he, ih rooted acc (fun x hx => h x (by simp [hx])),
        List.filter_cons_of_neg (by rcases he with he | he <;> simp [he])]
    · rw [cleanElems_cons, if_neg he, if_neg (h e (by simp)),
        ih rooted (e :: acc) (fun x hx => h x (by simp [hx])),
        List.filter_cons_of_pos (by simp only [Bool.not_eq_true', Bool.or_eq_false_iff,
          decide_eq_false_iff_not]; exact not_or.1 he)]
      simp

/-! Valid percent-encodings are preserved by joining with slashes. -/

theorem isSome_map_eq (f : GoStr → GoStr) (o : Option GoStr) : (o.map f).isSome = o.isSome := by
  cases o <;> rfl

theorem unescape_append_slash_aux (n : Nat) :
    ∀ (a b : GoStr), a.length ≤ n →
      (unescapeBytes a).isSome = true → (unescapeBytes b).isSome = true →
      (unescapeBytes (a ++ 47 :: b)).isSome = true := by
  induction n with
  | zero =>
    intro a b hlen ha hb
    have : a = [] := List.eq_nil_of_length_eq_zero (Nat.le_zero.1 hlen)
    subst this
    rw [List.nil_append, unescapeBytes_cons_ne 47 b (by decide)]
    simpa using hb
  | succ n ih =>
    intro a b hlen ha hb
    cases a with
    | nil =>
      rw [List.nil_append, unescapeBytes_cons_ne 47 b (by decide)]
      simpa using hb
    | cons c a2 =>
      by_cases hc : c = 37
      · subst hc
        cases a2 with
        | nil => simp [unescapeBytes] at ha
        | cons h1 a3 =>
          cases a3 with
          | nil => simp [unescapeBytes] at ha
          | cons h2 a4 =>
            rw [unescapeBytes_percent] at ha
            by_cases hhex : isHexDigit h1 ∧ isHexDigit h2
            · rw [if_pos hhex] at ha
              rw [isSome_map_eq] at ha
              have h4 := ih a4 b (by simp at hlen; omega) ha hb
              show (unescapeBytes (37 :: h1 :: h2 :: (a4 ++ 47 :: b))).isSome = true
              rw [unescapeBytes_percent, if_pos hhex, isSome_map_eq]
              exact h4
            · rw [if_neg hhex] at ha
              simp at ha
      · rw [unescapeBytes_cons_ne c a2 hc] at ha
        rw [isSome_map_eq] at ha
        show (unescapeBytes (c :: (a2 ++ 47 :: b))).isSome = true
        rw [unescapeBytes_cons_ne c _ hc]
        rw [isSome_map_eq]
        exact ih a2 b (by simp at hlen; omega) ha hb

theorem unescape_append_slash (a b : GoStr) (ha : (unescapeBytes a).isSome = true)
    (hb : (unescapeBytes b).isSome = true) :
    (unescapeBytes (a ++ 47 :: b)).isSome = true :=
  unescape_append_slash_aux a.length a b le_rfl ha hb

theorem unescape_joinSlash (segs : List GoStr)
    (h : ∀ e ∈ segs, (unescapeBytes e).isSome = true) :
    (unescapeBytes (joinSlash segs)).isSome = true := by
  induction segs with
  | nil => rfl
  | cons s rest ih =>
    cases rest with
    | nil => exact h s (by simp)
    | cons a t =>
      rw [joinSlash_cons s (a :: t) (by simp)]
      exact unescape_append_slash s (joinSlash (a :: t)) (h s (by simp))
        (ih fun e he => h e (by simp [he]))

theorem unescape_cons_slash (s : GoStr) :
    (unescapeBytes (47 :: s)).isSome = (unescapeBytes s).isSome := by
  rw [unescapeBytes_cons_ne 47 s (by decide)]
  simp

/-! SegWF accessors. -/

theorem goodSeg_spec (e : GoStr) (h : goodSeg e = true) :
    e ≠ [] ∧ containsSlash e = false ∧ e ≠ [46] ∧ e ≠ [46, 46]
      ∧ (unescapeBytes e).isSome = true := by
  simp only [goodSeg, Bool.and_eq_true, decide_eq_true_eq, Bool.not_eq_true'] at h
  tauto

theorem segWF_segments (u : GoURL) (h : SegWF u = true) :
    ∀ e ∈ urlSegments u, goodSeg e = true := by
  intro e he
  by_cases hu : u = []
  · simp [urlSegments, hu] at he
  · simp only [urlSegments, if_neg hu] at he
    simp only [SegWF, Bool.or_eq_true, List.isEmpty_iff, List.all_eq_true] at h
    rcases h with h | h
    · exact absurd h hu
    · exact h e he

theorem segWF_head (u : GoURL) (h : SegWF u = true) : ¬ u.head? = some 47 := by
  cases u with
  | nil => simp
  | cons b rest =>
    intro hb
    simp only [List.head?_cons, Option.some.injEq] at hb
    subst hb
    have hmem : ([] : GoStr) ∈ urlSegments (47 :: rest) := by
      simp [urlSegments, splitSlash_cons_slash]
    have h2 := segWF_segments _ h [] hmem
    simp [goodSeg] at h2

theorem segWF_getLast (u : GoURL) (h : SegWF u = true) : ¬ u.getLast? = some 47 := by
  intro hl
  by_cases hu : u = []
  · rw [hu] at hl; simp at hl
  · have h2 := splitSlash_getLast_slash u hl
    have hmem : ([] : GoStr) ∈ urlSegments u := by
      simp only [urlSegments, if_neg hu]
      exact mem_of_getLast_eq _ _ h2
    have h3 := segWF_segments _ h [] hmem
    simp [goodSeg] at h3

theorem joinSlash_splitSlash (s : GoStr) : joinSlash (splitSlash s) = s := by
  induction s with
  | nil => rfl
  | cons b rest ih =>
    by_cases hb : b = 47
    · subst hb
      rw [splitSlash_cons_slash, joinSlash_cons [] (splitSlash rest) (splitSlash_ne_nil rest), ih]
      rfl
    · rcases hsp : splitSlash rest with _ | ⟨e, es⟩
      · exact absurd hsp (splitSlash_ne_nil rest)
      · rw [splitSlash_cons_of_ne b rest hb e es hsp]
        cases es with
        | nil =>
          have he : e = rest := by rw [← ih, hsp]; rfl
          rw [he]
          rfl
        | cons e2 es2 =>
          rw [joinSlash_cons (b :: e) (e2 :: es2) (by simp), ← ih, hsp,
            joinSlash_cons e (e2 :: es2) (by simp)]
          rfl

theorem segWF_valid (u : GoURL) (h : SegWF u = true) : (unescapeBytes u).isSome = true := by
  by_cases hu : u = []
  · rw [hu]; rfl
  · have hs : ∀ e ∈ splitSlash u, goodSeg e = true := by
      intro e he
      exact segWF_segments u h e (by simp [urlSegments, hu, he])
    rw [← joinSlash_splitSlash u]
    exact unescape_joinSlash (splitSlash u) fun e he => (goodSeg_spec e (hs e he)).2.2.2.2

/-! The central join computation on well-formed URLs. -/

theorem pathJoin_cons_ne_nil (a : GoStr) (elems : List GoStr) (h : a ≠ []) :
    pathJoin (a :: elems) = pathClean (joinSlash (a :: elems)) := by
  unfold pathJoin
  rw [List.dropWhile_cons_of_neg (by simpa using h)]

theorem pathClean_cons_slash (s : GoStr) :
    pathClean (47 :: s) = 47 :: joinSlash (cleanElems true [] (splitSlash (47 :: s))) := rfl

theorem filter_keep_splitSlash (u : GoURL) (hu : SegWF u = true) :
    (splitSlash u).filter (fun e => !(decide (e = []) || decide (e = [46]))) = urlSegments u := by
  by_cases hu0 : u = []
  · subst hu0; rfl
  · have hall : ∀ e ∈ splitSlash u, goodSeg e = true := by
      intro e he
      exact segWF_segments u hu e (by simp [urlSegments, hu0, he])
    rw [urlSegments, if_neg hu0]
    rw [List.filter_eq_self]
    intro e he
    have hs := goodSeg_spec e (hall e he)
    simp [hs.1, hs.2.2.1]

theorem goURLString_nil : goURLString [] = [] := rfl

theorem splitSlash_dotslash (w : GoStr) : splitSlash (46 :: 47 :: w) = [46] :: splitSlash w := by
  rcases h : splitSlash (47 :: w) with _ | ⟨e, es⟩
  · exact absurd h (splitSlash_ne_nil (47 :: w))
  · rw [splitSlash_cons_slash] at h
    injection h with h1 h2
    rw [splitSlash_cons_of_ne 46 (47 :: w) (by decide) e es (by rw [splitSlash_cons_slash, h1, h2]),
      ← h1]
    rw [h2]

theorem filter_keep_string (w : GoURL) (hw : SegWF w = true) :
    (splitSlash (goURLString w)).filter (fun e => !(decide (e = []) || decide (e = [46]))) =
      urlSegments w := by
  unfold goURLString
  split
  · rw [splitSlash_dotslash, List.filter_cons_of_neg (by simp)]
    exact filter_keep_splitSlash w hw
  · exact filter_keep_splitSlash w hw

theorem string_no_dotdot (u : GoURL) (hu : SegWF u = true) :
    ∀ e ∈ splitSlash (goURLString u), e ≠ [46, 46] := by
  have hbase : ∀ e ∈ splitSlash u, e ≠ [46, 46] := by
    intro e he heq
    by_cases hu0 : u = []
    · rw [hu0] at he; simp [splitSlash] at he; rw [he] at heq; simp at heq
    · have := goodSeg_spec e (segWF_segments u hu e (by simp [urlSegments, hu0, he]))
      exact this.2.2.2.1 heq
  unfold goURLString
  split
  · rw [splitSlash_dotslash]
    intro e he
    rcases List.mem_cons.1 he with he | he
    · rw [he]; simp
    · exact hbase e he
  · exact hbase

theorem goURLString_getLast (w : GoURL) (hw : SegWF w = true) :
    ¬ (goURLString w).getLast? = some 47 := by
  by_cases hw0 : w = []
  · subst hw0; rw [goURLString_nil]; simp
  · unfold goURLString
    rcases w with _ | ⟨c, t⟩
    · exact absurd rfl hw0
    · split
      · rw [List.getLast?_cons_cons, List.getLast?_cons_cons]
        exact segWF_getLast (c :: t) hw
      · exact segWF_getLast (c :: t) hw

theorem segsGood_append (u w : GoURL) (hu : SegWF u = true) (hw : SegWF w = true) :
    ∀ e ∈ urlSegments u ++ urlSegments w, goodSeg e = true := by
  intro e he
  rcases List.mem_append.1 he with he | he
  · exact segWF_segments u hu e he
  · exact segWF_segments w hw e he

theorem pathJoin_relative_string (u w : GoURL) (hu : SegWF u = true) (hw : SegWF w = true) :
    pathJoin ((47 :: u) :: [goURLString w]) =
      47 :: joinSlash (urlSegments u ++ urlSegments w) := by
  rw [pathJoin_cons_ne_nil _ _ (by simp),
    joinSlash_cons (47 :: u) [goURLString w] (by simp)]
  show pathClean (47 :: (u ++ 47 :: goURLString w)) = _
  rw [pathClean_cons_slash, splitSlash_cons_slash, splitSlash_append]
  have hnodd : ∀ e ∈ ([] : GoStr) :: (splitSlash u ++ splitSlash (goURLString w)),
      e ≠ [46, 46] := by
    intro e he
    rcases List.mem_cons.1 he with he | he
    · rw [he]; simp
    · rcases List.mem_append.1 he with he | he
      · intro heq
        by_cases hu0 : u = []
        · rw [hu0] at he; simp [splitSlash] at he; rw [he] at heq; simp at heq
        · exact (goodSeg_spec e
            (segWF_segments u hu e (by simp [urlSegments, hu0, he]))).2.2.2.1 heq
      · exact string_no_dotdot w hw e he
  rw [cleanElems_no_dotdot _ _ _ hnodd]
  rw [List.reverse_nil, List.nil_append, List.filter_cons_of_neg (by simp), List.filter_append,
    filter_keep_splitSlash u hu, filter_keep_string w hw]

theorem goURLJoinPath_nonroot (u : GoURL) (elems : List GoStr) (h : ¬ u.head? = some 47) :
    goURLJoinPath u elems =
      (let joined := pathJoin ((47 :: u) :: elems)
       let p := if (elems.getLastD (47 :: u)).getLast? = some 47 ∧
            ¬ (joined.drop 1).getLast? = some 47 then joined.drop 1 ++ [47] else joined.drop 1
       if (unescapeBytes p).isSome then p else u) := by
  simp only [goURLJoinPath, if_neg h]

theorem joinRoute_url_append (u w : GoURL) (hu : SegWF u = true) (hw : SegWF w = true) :
    goURLJoinPath u [goURLString w] = joinSlash (urlSegments u ++ urlSegments w) := by
  rw [goURLJoinPath_nonroot u [goURLString w] (segWF_head u hu)]
  simp only
  rw [pathJoin_relative_string u w hu hw]
  rw [List.drop_one, List.tail_cons]
  have hlast : ([goURLString w].getLastD (47 :: u)) = goURLString w := rfl
  rw [hlast]
  have hcond : ¬ ((goURLString w).getLast? = some 47 ∧
      ¬ (joinSlash (urlSegments u ++ urlSegments w)).getLast? = some 47) :=
    fun hcon => goURLString_getLast w hw hcon.1
  rw [if_neg hcond]
  have hval : (unescapeBytes (joinSlash (urlSegments u ++ urlSegments w))).isSome = true :=
    unescape_joinSlash _ fun e he =>
      (goodSeg_spec e (segsGood_append u w hu hw e he)).2.2.2.2
  rw [if_pos hval]

theorem joinSegs_wf (segs : List GoStr) (h : ∀ e ∈ segs, goodSeg e = true) :
    SegWF (joinSlash segs) = true ∧ urlSegments (joinSlash segs) = segs := by
  cases segs with
  | nil => exact ⟨rfl, rfl⟩
  | cons s rest =>
    have hne : joinSlash (s :: rest) ≠ [] := by
      cases rest with
      | nil => exact (goodSeg_spec s (h s (by simp))).1
      | cons a t =>
        rw [joinSlash_cons s (a :: t) (by simp)]
        simp
    have hsplit : splitSlash (joinSlash (s :: rest)) = s :: rest :=
      splitSlash_joinSlash _ (by simp) (fun e he => (goodSeg_spec e (h e he)).2.1)
    constructor
    · simp only [SegWF, Bool.or_eq_true, List.all_eq_true]
      right
      rw [hsplit]
      exact h
    · rw [urlSegments, if_neg hne]
      exact hsplit

theorem JoinRoute_none (u1 u2 : GoURL) :
    clientRoute.JoinRoute ⟨u1, none⟩ ⟨u2, none⟩ =
      ⟨goURLJoinPath u1 [goURLString u2], none⟩ := rfl

/-- C2.  JoinRoute merge semantics on well-formed builders: with self's
error set the result is self unchanged whatever other is (other's error is
never consulted); with only other's error set the result keeps self's path
and takes other's error; with neither set the result has no error and its
segments are self's followed by other's, in order. -/
theorem claim_C2 (u1 u2 : GoURL) (e : GoError) (o : clientRoute)
    (h1 : SegWF u1 = true) (h2 : SegWF u2 = true) :
    clientRoute.JoinRoute ⟨u1, some e⟩ o = ⟨u1, some e⟩
    ∧ clientRoute.JoinRoute ⟨u1, none⟩ ⟨u2, some e⟩ = ⟨u1, some e⟩
    ∧ (clientRoute.JoinRoute ⟨u1, none⟩ ⟨u2, none⟩).err = none
    ∧ urlSegments (clientRoute.JoinRoute ⟨u1, none⟩ ⟨u2, none⟩).url =
        urlSegments u1 ++ urlSegments u2 := by
  refine ⟨by simp [clientRoute.JoinRoute], by simp [clientRoute.JoinRoute], ?_, ?_⟩
  · rw [JoinRoute_none]
  · rw [JoinRoute_none]
    show urlSegments (goURLJoinPath u1 [goURLString u2]) = _
    rw [joinRoute_url_append u1 u2 h1 h2]
    exact (joinSegs_wf _ (segsGood_append u1 u2 h1 h2)).2

theorem claim_C2_witness :
    urlSegments (clientRoute.JoinRoute ⟨bAPI, none⟩ ⟨bV4, none⟩).url =
      urlSegments bAPI ++ urlSegments bV4 :=
  (claim_C2 bAPI bV4 (GoError.external 0) emptyClientRoute (by decide) (by decide)).2.2.2

/-- C6.  Associativity of JoinRoute on well-formed builders: the two
associations resolve to the same outcome, and on success to the same
string. -/
theorem claim_C6 (a b c : clientRoute)
    (h1 : SegWF a.url = true) (h2 : SegWF b.url = true) (h3 : SegWF c.url = true) :
    ((a.JoinRoute b).JoinRoute c).String = (a.JoinRoute (b.JoinRoute c)).String := by
  obtain ⟨u1, e1⟩ := a
  obtain ⟨u2, e2⟩ := b
  obtain ⟨u3, e3⟩ := c
  simp only at h1 h2 h3
  cases e1 with
  | some x => simp [clientRoute.JoinRoute]
  | none =>
    cases e2 with
    | some x => simp [clientRoute.JoinRoute]
    | none =>
      cases e3 with
      | some x =>
        rw [JoinRoute_none]
        simp [clientRoute.JoinRoute, clientRoute.String]
      | none =>
        rw [JoinRoute_none, JoinRoute_none, JoinRoute_none, JoinRoute_none]
        have j12 := joinRoute_url_append u1 u2 h1 h2
        have w12 := joinSegs_wf _ (segsGood_append u1 u2 h1 h2)
        have j23 := joinRoute_url_append u2 u3 h2 h3
        have w23 := joinSegs_wf _ (segsGood_append u2 u3 h2 h3)
        have hL : goURLJoinPath (goURLJoinPath u1 [goURLString u2]) [goURLString u3] =
            joinSlash ((urlSegments u1 ++ urlSegments u2) ++ urlSegments u3) := by
          rw [j12, joinRoute_url_append _ u3 w12.1 h3, w12.2]
        have hR : goURLJoinPath u1 [goURLString (goURLJoinPath u2 [goURLString u3])] =
            joinSlash (urlSegments u1 ++ (urlSegments u2 ++ urlSegments u3)) := by
          rw [j23, joinRoute_url_append u1 _ h1 w23.1, w23.2]
        rw [hL, hR, List.append_assoc]

theorem claim_C6_witness :
    ((newClientRoute bAPI).JoinRoute ((newClientRoute bV4).JoinRoute (newClientRoute bUsers))).String =
      Except.ok [47, 97, 112, 105, 47, 118, 52, 47, 117, 115, 101, 114, 115] := by
  have h := claim_C6 (newClientRoute bAPI) (newClientRoute bV4) (newClientRoute bUsers)
    (by decide) (by decide) (by decide)
  rw [← h]
  decide

/-! The C3 computation: newClientRoute stores the escaped segment and the
finalizer prints a slash before it. -/

theorem newClientRoute_url_eq (v : GoStr) (h0 : v ≠ [])
    (h1 : v ≠ [46]) (h2 : v ≠ [46, 46]) : (newClientRoute v).url = pathEscape v := by
  show goURLJoinPath [] [pathEscape v] = pathEscape v
  rw [goURLJoinPath_nonroot [] [pathEscape v] (by simp)]
  simp only
  have hesc_ne : pathEscape v ≠ [] := fun h => h0 ((pathEscape_eq_nil_iff v).1 h)
  have hesc_nd : pathEscape v ≠ [46] := fun h => h1 (pathEscape_eq_dot v h)
  have hesc_ndd : pathEscape v ≠ [46, 46] := fun h => h2 (pathEscape_eq_dotdot v h)
  have hpj : pathJoin ((47 :: ([] : GoStr)) :: [pathEscape v]) = 47 :: pathEscape v := by
    rw [pathJoin_cons_ne_nil _ _ (by simp), joinSlash_cons _ [pathEscape v] (by simp)]
    show pathClean (47 :: (([] : GoStr) ++ 47 :: pathEscape v)) = _
    rw [List.nil_append, pathClean_cons_slash, splitSlash_cons_slash, splitSlash_cons_slash,
      splitSlash_noslash _ (pathEscape_noslash v)]
    have hnodd : ∀ e ∈ ([] : GoStr) :: ([] : GoStr) :: [pathEscape v], e ≠ [46, 46] := by
      intro e he
      rcases List.mem_cons.1 he with he | he
      · rw [he]; simp
      · rcases List.mem_cons.1 he with he | he
        · rw [he]; simp
        · simp only [List.mem_singleton] at he
          rw [he]; exact hesc_ndd
    rw [cleanElems_no_dotdot _ true [] hnodd, List.reverse_nil, List.nil_append,
      List.filter_cons_of_neg (by simp), List.filter_cons_of_neg (by simp),
      List.filter_cons_of_pos (by simp [hesc_ne, hesc_nd]), List.filter_nil]
    rfl
  rw [hpj, List.drop_one, List.tail_cons]
  have hgl : ¬ ((([pathEscape v] : List GoStr).getLastD (47 :: ([] : GoStr))).getLast? = some 47 ∧
      ¬ (pathEscape v).getLast? = some 47) :=
    fun hcon => noslash_getLast _ (pathEscape_noslash v) hcon.1
  rw [if_neg hgl]
  rw [if_pos (by rw [unescape_pathEscape]; rfl)]

theorem pathEscape_segwf (v : GoStr) (h0 : v ≠ []) (h1 : v ≠ [46]) (h2 : v ≠ [46, 46]) :
    SegWF (pathEscape v) = true ∧ joinSlash (urlSegments (pathEscape v)) = pathEscape v := by
  have hne : pathEscape v ≠ [] := fun h => h0 ((pathEscape_eq_nil_iff v).1 h)
  have hgood : goodSeg (pathEscape v) = true := by
    simp only [goodSeg, Bool.and_eq_true, decide_eq_true_eq, Bool.not_eq_true']
    exact ⟨⟨⟨⟨hne, pathEscape_noslash v⟩, fun h => h1 (pathEscape_eq_dot v h)⟩,
      fun h => h2 (pathEscape_eq_dotdot v h)⟩, by rw [unescape_pathEscape]; rfl⟩
  have hsp : splitSlash (pathEscape v) = [pathEscape v] :=
    splitSlash_noslash _ (pathEscape_noslash v)
  constructor
  · simp only [SegWF, Bool.or_eq_true, List.all_eq_true]
    right
    rw [hsp]
    intro e he
    simp only [List.mem_singleton] at he
    rw [he]
    exact hgood
  · rw [urlSegments, if_neg hne, hsp]
    rfl

theorem finalize_segwf (u : GoURL) (hu : SegWF u = true) :
    clientRoute.String ⟨u, none⟩ = Except.ok (47 :: joinSlash (urlSegments u)) := by
  show goUrlJoinPath [47] [goURLString u] = _
  rw [finalizer_shape]
  have hpj : pathJoin ([47] :: [goURLString u]) = 47 :: joinSlash (urlSegments u) := by
    have hp0 := pathJoin_relative_string [] u rfl hu
    simpa using hp0
  rw [goURLJoinPath_root [goURLString u]]
  have hcond : ¬ ((([goURLString u] : List GoStr).getLastD [47]).getLast? = some 47 ∧
      ¬ (pathJoin ([47] :: [goURLString u])).getLast? = some 47) :=
    fun hcon => goURLString_getLast u hu hcon.1
  rw [if_neg hcond]
  have hval : (unescapeBytes (pathJoin ([47] :: [goURLString u]))).isSome = true := by
    rw [hpj, unescape_cons_slash]
    exact unescape_joinSlash _ fun e he => (goodSeg_spec e (segWF_segments u hu e he)).2.2.2.2
  rw [if_pos hval, hpj, goURLString_of_head_slash _ (by simp)]

/-- C3 amended.  For every slash-free v other than the dot and dot-dot
strings, newClientRoute(v).String() succeeds with exactly the slash byte
followed by the percent-escaped form of v, and percent-decoding the escaped
segment recovers v exactly.  (The dot and dot-dot segments are cleaned away
instead, see the counterexample.) -/
theorem claim_C3_amended (v : GoStr) (hv : containsSlash v = false)
    (h1 : v ≠ [46]) (h2 : v ≠ [46, 46]) :
    (newClientRoute v).String = Except.ok (47 :: pathEscape v)
    ∧ unescapeBytes (pathEscape v) = some v := by
  refine ⟨?_, unescape_pathEscape v⟩
  by_cases h0 : v = []
  · subst h0; decide
  · have hmk : newClientRoute v = ⟨pathEscape v, none⟩ := by
      have hurl := newClientRoute_url_eq v h0 h1 h2
      show (⟨(newClientRoute v).url, none⟩ : clientRoute) = _
      rw [hurl]
    rw [hmk, finalize_segwf (pathEscape v) (pathEscape_segwf v h0 h1 h2).1,
      (pathEscape_segwf v h0 h1 h2).2]

theorem claim_C3_amended_witness :
    (newClientRoute [104, 105, 32, 109, 101]).String =
      Except.ok (47 :: pathEscape [104, 105, 32, 109, 101])
    ∧ unescapeBytes (pathEscape [104, 105, 32, 109, 101]) =
        some [104, 105, 32, 109, 101] :=
  claim_C3_amended [104, 105, 32, 109, 101] (by decide) (by decide) (by decide)
